import Mathlib

/-!
Verification development for the ProLink repository.

The development shallowly embeds the label-normalization routines of
`ProLink/modules/subprocess_functions.py` (`clean_label`,
`clean_newick_string`) and the sequence filter of
`ProLink/modules/uniprot_sequences.py` (`filter_valid_sequences`) as
executable Lean functions on lists of characters, and proves properties of
them.

Modelling conventions:
* Strings are ASCII lists of characters; the Python regex classes are
  modelled on ASCII (the inputs of the program are ASCII labels).
* Each `re.sub(pattern, "", s)` call is modelled by a left-to-right scanner
  that at each position tries a matcher for the concrete pattern and, on
  success, continues after the matched span (the semantics of non-overlapping
  leftmost replacement).  Every matcher consumes at least one character, so a
  fuel equal to the length of the list suffices.
* `re.escape` follows Python 3.7 and later, where the underscore is not
  escaped; hence the `protein_regex` of `clean_label` line 46 is the literal
  hint matched case-insensitively whenever the hint consists of word
  characters, because the subsequent `.replace` of an escaped underscore
  finds nothing to replace.
* The remote validation service of `uniprot_sequences.py` is an opaque
  boolean oracle passed as a parameter.
-/

namespace ProLink

/-- ASCII model of the Python regex whitespace class: space, tab, newline,
carriage return, vertical tab, form feed. -/
def pySpace (c : Char) : Bool :=
  c == ' ' || c == '\t' || c == '\n' || c == '\r' || c == '\x0b' || c == '\x0c'

/-- ASCII letter, the regex class A-Za-z. -/
def isAsciiAlpha (c : Char) : Bool :=
  (decide ('A' ≤ c) && decide (c ≤ 'Z')) || (decide ('a' ≤ c) && decide (c ≤ 'z'))

/-- ASCII digit 0-9, the regex digit class on ASCII input. -/
def isDigitC (c : Char) : Bool :=
  decide ('0' ≤ c) && decide (c ≤ '9')

/-- ASCII alphanumeric, the regex class A-Za-z0-9. -/
def isAlnumC (c : Char) : Bool := isAsciiAlpha c || isDigitC c

/-- Regex word character (letter, digit or underscore), used for the word
boundaries of the `unclassified` pattern. -/
def isWordC (c : Char) : Bool := isAlnumC c || c == '_'

/-- Single or double quote, the character set of `label.strip` on line 40. -/
def quoteChar (c : Char) : Bool := c == '\'' || c == '"'

/-- Space or underscore, the character set of `label.strip` on line 53. -/
def spaceUnderscoreChar (c : Char) : Bool := c == ' ' || c == '_'

/-- Python `str.strip(chars)`: remove the characters satisfying `p` from both
ends of the list. -/
def stripBoth (p : Char → Bool) (l : List Char) : List Char :=
  ((l.dropWhile p).reverse.dropWhile p).reverse

/-- Case-insensitive match of the literal pattern `pat` against a prefix of
`l`, returning the remainder on success.  This is the IGNORECASE literal
matching used by several substitutions of `clean_label`. -/
def ciMatch : List Char → List Char → Option (List Char)
  | [], l => some l
  | _ :: _, [] => none
  | p :: ps, c :: cs => if p.toLower == c.toLower then ciMatch ps cs else none

/-- Whether `pat` occurs case-insensitively anywhere in `l`. -/
def containsCI (pat : List Char) : List Char → Bool
  | [] => (ciMatch pat []).isSome
  | c :: cs => (ciMatch pat (c :: cs)).isSome || containsCI pat cs

/-- Generic model of `re.sub(pattern, "", s)`: scan left to right; at each
position try the matcher `m`.  The matcher receives a flag telling whether the
previous character was a word character (needed for word-boundary patterns)
and returns the updated flag together with the remainder after the match.  On
success the scan continues after the match, otherwise the character is kept.
The fuel is always instantiated with the length of the list, which suffices
because every matcher below consumes at least one character. -/
def scanSub (m : Bool → List Char → Option (Bool × List Char)) :
    Nat → Bool → List Char → List Char
  | 0, _, l => l
  | _ + 1, _, [] => []
  | fuel + 1, pw, c :: cs =>
    match m pw (c :: cs) with
    | some (pw2, rest) => scanSub m fuel pw2 rest
    | none => c :: scanSub m fuel (isWordC c) cs

/-- Run a substitution scanner over a whole list (at the start of the string
there is no previous word character). -/
def runSub (m : Bool → List Char → Option (Bool × List Char)) (l : List Char) :
    List Char :=
  scanSub m l.length false l

/-- Matcher for the accession-code pattern of `clean_label` line 42: literal
`W` `P`, one whitespace-or-underscore separator, nine digits, a dot, one
digit.  Case-sensitive, exactly as in the source, whose substitution carries
no IGNORECASE flag. -/
def mWP (_ : Bool) : List Char → Option (Bool × List Char)
  | c1 :: c2 :: s :: d1 :: d2 :: d3 :: d4 :: d5 :: d6 :: d7 :: d8 :: d9 :: dot :: d10 :: rest =>
    if c1 == 'W' && c2 == 'P' && (pySpace s || s == '_')
        && isDigitC d1 && isDigitC d2 && isDigitC d3 && isDigitC d4 && isDigitC d5
        && isDigitC d6 && isDigitC d7 && isDigitC d8 && isDigitC d9
        && dot == '.' && isDigitC d10
    then some (true, rest) else none
  | _ => none

/-- Matcher for `clean_label` line 44: the literal `MULTISPECIES:` matched
case-insensitively, followed by a greedy run of whitespace. -/
def mMulti (_ : Bool) (l : List Char) : Option (Bool × List Char) :=
  match ciMatch "MULTISPECIES:".data l with
  | some rest => some (false, rest.dropWhile pySpace)
  | none => none

/-- Matcher for `clean_label` lines 46 and 47: removal of the protein-name
hint.  With Python 3.7 semantics of `re.escape`, for a hint made of word
characters the compiled `protein_regex` is the literal hint matched
case-insensitively (the underscore is not escaped, so the `.replace` of an
escaped underscore has no effect). -/
def mLit (hint : List Char) (_ : Bool) (l : List Char) : Option (Bool × List Char) :=
  match hint with
  | [] => none
  | _ :: _ =>
    match ciMatch hint l with
    | some rest => some (isWordC (hint.getLastD ' '), rest)
    | none => none

/-- Head of a list is a word character. -/
def headIsWord : List Char → Bool
  | [] => false
  | c :: _ => isWordC c

/-- Matcher for `clean_label` line 49: the word `unclassified` matched
case-insensitively between word boundaries. -/
def mUncl (pw : Bool) (l : List Char) : Option (Bool × List Char) :=
  if pw then none
  else
    match ciMatch "unclassified".data l with
    | some rest => if headIsWord rest then none else some (true, rest)
    | none => none

/-- Hyphen, underscore or whitespace: the bridging class of the
`Same Domains` pattern of `clean_label` line 51. -/
def isDashSep (c : Char) : Bool := c == '-' || c == '_' || pySpace c

/-- Matcher for `clean_label` line 51: a greedy run of hyphen, underscore or
whitespace, the word `Same`, another such run, and the word `Domains`, all
case-insensitive.  The greedy runs must be maximal because the following
literal starts with a letter outside the bridging class. -/
def mSame (_ : Bool) (l : List Char) : Option (Bool × List Char) :=
  match ciMatch "same".data (l.dropWhile isDashSep) with
  | some r2 =>
    match ciMatch "domains".data (r2.dropWhile isDashSep) with
    | some r3 => some (true, r3)
    | none => none
  | none => none

/-- Dot allowed in the continuation segments of the species group of the
extraction pattern of `clean_label` lines 56 to 60. -/
def isSeg2C (c : Char) : Bool := isAlnumC c || c == '.'

/-- Underscore or whitespace: the single separator between species segments in
the species group of the extraction pattern. -/
def isSpSep (c : Char) : Bool := c == '_' || pySpace c

/-- Whitespace, underscore or hyphen: the separator class before the cluster
marker in the extraction pattern. -/
def isClSep (c : Char) : Bool := pySpace c || c == '_' || c == '-'

/-- Backtracking continuations of the species group: given the rest of the
string after a species prefix, list the possible pairs of (further species
extension, remainder), with the greedy (longest) extension first, exactly the
order in which the regex engine tries them.  Each extension is a single
underscore-or-whitespace separator followed by a maximal nonempty run of
alphanumeric-or-dot characters; shorter-than-maximal runs need not be listed
because the character after a shortened run can never start the separator
class of the cluster part. -/
def extCands : Nat → List Char → List (List Char × List Char)
  | fuel, l =>
    match l with
    | sep :: r =>
      if isSpSep sep then
        let seg := r.takeWhile isSeg2C
        if seg.isEmpty then [([], l)]
        else
          match fuel with
          | 0 => [([], l)]
          | fuel' + 1 =>
            (extCands fuel' (r.dropWhile isSeg2C)).map
              (fun pr => (sep :: (seg ++ pr.1), pr.2)) ++ [([], l)]
      else [([], l)]
    | [] => [([], l)]

/-- The cluster part of the extraction pattern: one or more separator
characters (whitespace, underscore, hyphen) followed by the literal three
hyphens, a `C` or `c` (IGNORECASE), and a greedy nonempty run of digits.
Because the letter is outside the separator class while the hyphens are
inside it, the literal hyphens must be the last three characters of the
maximal separator run, and the run must have length at least four so that the
one-or-more separator part is nonempty.  Returns the matched cluster group
and the remainder. -/
def clusterAfter (l : List Char) : Option (List Char × List Char) :=
  let run := l.takeWhile isClSep
  let rest := l.dropWhile isClSep
  if 4 ≤ run.length && run.drop (run.length - 3) == ['-', '-', '-'] then
    match rest with
    | c :: r2 =>
      if c == 'C' || c == 'c' then
        let ds := r2.takeWhile isDigitC
        if ds.isEmpty then none
        else some ('-' :: '-' :: '-' :: c :: ds, r2.dropWhile isDigitC)
      else none
    | [] => none
  else none

/-- Try the species candidates in backtracking order and return the first one
whose remainder carries a cluster part: (species group, cluster group,
remainder). -/
def firstCluster : List (List Char × List Char) → Option (List Char × List Char × List Char)
  | [] => none
  | (sp, rest) :: more =>
    match clusterAfter rest with
    | some (cl, rest2) => some (sp, cl, rest2)
    | none => firstCluster more

/-- Attempt of the extraction pattern at the current position: the species
group must start with an alphanumeric character; its first segment is the
maximal alphanumeric run, extended by the candidate continuations. -/
def matchAt (l : List Char) : Option (List Char × List Char × List Char) :=
  match l with
  | c :: _ =>
    if isAlnumC c then
      firstCluster ((extCands l.length (l.dropWhile isAlnumC)).map
        (fun pr => (l.takeWhile isAlnumC ++ pr.1, pr.2)))
    else none
  | [] => none

/-- `pattern.search` of `clean_label` line 61: the leftmost position at which
the extraction pattern matches, returning the species and cluster groups. -/
def searchSpecies : List Char → Option (List Char × List Char)
  | [] => none
  | c :: cs =>
    match matchAt (c :: cs) with
    | some (sp, cl, _) => some (sp, cl)
    | none => searchSpecies cs

/-- `species.replace(" ", "_")` acts on single characters. -/
def spaceToU (c : Char) : Char := if c == ' ' then '_' else c

/-- Lines 40 to 53 of `clean_label`: strip surrounding quotes, remove
accession codes, the MULTISPECIES marker, the protein-name hint, the word
`unclassified` and the `Same Domains` variants, then strip surrounding spaces
and underscores. -/
def cleanedCore (protein label : List Char) : List Char :=
  stripBoth spaceUnderscoreChar
    (runSub mSame
      (runSub mUncl
        (runSub (mLit protein)
          (runSub mMulti
            (runSub mWP
              (stripBoth quoteChar label))))))

/-- `clean_label` of `subprocess_functions.py` lines 24 to 67: the cleanup
steps followed by the extraction of species and cluster marker; on a match the
result is the species (stripped, spaces replaced by underscores), an
underscore, and the cluster marker (stripped); otherwise the cleaned label
itself. -/
def cleanLabel (protein label : List Char) : List Char :=
  match searchSpecies (cleanedCore protein label) with
  | some (sp, cl) =>
    (stripBoth pySpace sp).map spaceToU ++ '_' :: stripBoth pySpace cl
  | none => cleanedCore protein label

/-- The default protein-name hint of `clean_label`. -/
def defaultProtein : List Char := "alkene_reductase".data

/-- Character class of an unquoted label in the pattern of
`clean_newick_string` line 78: letters, digits, space, underscore, dot,
hyphen. -/
def isUnqC (c : Char) : Bool :=
  isAlnumC c || c == ' ' || c == '_' || c == '.' || c == '-'

/-- Character class of a branch length in the pattern of
`clean_newick_string` line 78: digits, dot, `e`, `E`, plus, minus. -/
def branchChar (c : Char) : Bool :=
  isDigitC c || c == '.' || c == 'e' || c == 'E' || c == '+' || c == '-'

/-- Whether the list starts with the cluster marker: three hyphens, `C` or
`c` (the pattern is compiled with IGNORECASE), and at least one digit. -/
def hasClusterFrom : List Char → Bool
  | h1 :: h2 :: h3 :: c :: d :: _ =>
    h1 == '-' && h2 == '-' && h3 == '-' && (c == 'C' || c == 'c') && isDigitC d
  | _ => false

/-- Whether the cluster marker occurs at some position of the list. -/
def containsCluster : List Char → Bool
  | [] => false
  | c :: cs => hasClusterFrom (c :: cs) || containsCluster cs

/-- Quoted alternatives of the label pattern: after the opening quote, a
maximal run of characters that are neither the quote nor a colon, which must
be followed by the closing quote and must contain the cluster marker at some
position at least one (the one-or-more part before the marker).  The matched
text is the quoted run including both quotes. -/
def quotedMatch (q : Char) (after : List Char) : Option (List Char × List Char) :=
  let content := after.takeWhile (fun c => !(c == q || c == ':'))
  match after.dropWhile (fun c => !(c == q || c == ':')) with
  | c :: rest2 =>
    if c == q && containsCluster (content.drop 1) then
      some (q :: content ++ [q], rest2)
    else none
  | [] => none

/-- Unquoted alternative: the longest nonempty run of label characters after
which the cluster marker starts.  Returns the run together with the remainder
starting at the marker; the greedy one-or-more label part makes the engine
prefer the latest marker position. -/
def unqSplit : List Char → Option (List Char × List Char)
  | [] => none
  | c :: rest =>
    if isUnqC c then
      match unqSplit rest with
      | some (a, suf) => some (c :: a, suf)
      | none => if hasClusterFrom rest then some ([c], rest) else none
    else none

/-- Unquoted alternative of the label pattern, at the current position:
label-class run, literal marker, greedy digits. -/
def unqMatch (l : List Char) : Option (List Char × List Char) :=
  match unqSplit l with
  | some (a, suf) =>
    some (a ++ suf.take 4 ++ (suf.drop 4).takeWhile isDigitC,
      (suf.drop 4).dropWhile isDigitC)
  | none => none

/-- The optional branch-length group: a colon followed by a greedy nonempty
run of branch characters; otherwise the branch is empty.  Returns the branch
text and the remainder. -/
def splitBranch (l : List Char) : List Char × List Char :=
  match l with
  | ':' :: c :: rest =>
    if branchChar c then (':' :: c :: rest.takeWhile branchChar, rest.dropWhile branchChar)
    else ([], l)
  | _ => ([], l)

/-- The label alternatives of the pattern, in order: single-quoted,
double-quoted, unquoted.  A quote character is not in the unquoted class, so
at most one alternative can apply at a given position. -/
def labMatch : List Char → Option (List Char × List Char)
  | '\'' :: after => quotedMatch '\'' after
  | '"' :: after => quotedMatch '"' after
  | l => unqMatch l

/-- The full label-with-branch pattern of `clean_newick_string` at the
current position: a label alternative, then the optional branch length.
Returns the label part, the branch part and the remainder. -/
def mNewick (l : List Char) : Option (List Char × List Char × List Char) :=
  match labMatch l with
  | some (labFull, rest1) => some (labFull, (splitBranch rest1).1, (splitBranch rest1).2)
  | none => none

/-- Scanner of `pattern.sub(replacer, newick_str)`: leftmost non-overlapping
matches; each match contributes the cleaned label followed by the branch text
verbatim, all other characters pass through.  Fuel as in `scanSub`. -/
def cleanNewickAux (protein : List Char) : Nat → List Char → List Char
  | 0, l => l
  | _ + 1, [] => []
  | fuel + 1, c :: cs =>
    match mNewick (c :: cs) with
    | some (labFull, br, rest) =>
      cleanLabel protein labFull ++ br ++ cleanNewickAux protein fuel rest
    | none => c :: cleanNewickAux protein fuel cs

/-- `clean_newick_string` of `subprocess_functions.py` lines 69 to 90. -/
def cleanNewick (protein l : List Char) : List Char :=
  cleanNewickAux protein l.length l

/-- Decomposition segment of a tree string: either a character outside every
match, or a matched label part together with its (possibly empty) branch
text. -/
inductive NSeg where
  | gap (c : Char)
  | lab (labelPart branch : List Char)
deriving DecidableEq

/-- Original text of a segment. -/
def segOrig : NSeg → List Char
  | .gap c => [c]
  | .lab labelPart branch => labelPart ++ branch

/-- Normalized text of a segment: the label part is cleaned, the branch text
is kept verbatim, characters outside matches are unchanged. -/
def segClean (protein : List Char) : NSeg → List Char
  | .gap c => [c]
  | .lab labelPart branch => cleanLabel protein labelPart ++ branch

/-- The decomposition of a tree string induced by the scanner. -/
def toSegsAux : Nat → List Char → List NSeg
  | 0, l => l.map NSeg.gap
  | _ + 1, [] => []
  | fuel + 1, c :: cs =>
    match mNewick (c :: cs) with
    | some (labFull, br, rest) => NSeg.lab labFull br :: toSegsAux fuel rest
    | none => NSeg.gap c :: toSegsAux fuel cs

/-- Well-formed branch text: empty, or a colon followed by a nonempty run of
branch characters. -/
def branchWF (b : List Char) : Prop :=
  b = [] ∨ ∃ c ds, b = ':' :: c :: ds ∧ branchChar c = true ∧ ∀ x ∈ ds, branchChar x = true

/-- Well-formedness of a decomposition segment: a matched label is nonempty
and contains a cluster marker, and its branch text is a well-formed
branch-length suffix. -/
def segWF : NSeg → Prop
  | .gap _ => True
  | .lab labelPart branch =>
    labelPart ≠ [] ∧ containsCluster labelPart = true ∧ branchWF branch

/-- A sequence record of the FASTA file: a description line and sequence
data.  Only the description is inspected by the filter. -/
structure SeqRecord where
  description : List Char
  seqData : List Char
deriving DecidableEq

/-- Match, at the current position, the accession-code pattern of
`uniprot_sequences.py` line 57: literal `WP_`, nine digits, a dot, one digit
(case-sensitive, literal underscore), returning the matched code. -/
def findWPAt : List Char → Option (List Char)
  | 'W' :: 'P' :: '_' :: d1 :: d2 :: d3 :: d4 :: d5 :: d6 :: d7 :: d8 :: d9 :: dot :: d10 :: _ =>
    if isDigitC d1 && isDigitC d2 && isDigitC d3 && isDigitC d4 && isDigitC d5
        && isDigitC d6 && isDigitC d7 && isDigitC d8 && isDigitC d9
        && dot == '.' && isDigitC d10
    then some ('W' :: 'P' :: '_' :: d1 :: d2 :: d3 :: d4 :: d5 :: d6 :: d7 :: d8 :: d9 :: dot :: [d10])
    else none
  | _ => none

/-- `re.search` of the accession-code pattern: leftmost occurrence. -/
def findWP : List Char → Option (List Char)
  | [] => none
  | c :: cs =>
    match findWPAt (c :: cs) with
    | some code => some code
    | none => findWP cs

/-- The block decomposition of `filter_valid_sequences` lines 68 to 69:
slices of size `bs` taken from the front.  Fuel as elsewhere; for a positive
block size and fuel at least the length the slices concatenate back to the
list.  A block size of zero makes the Python `range` raise, so it is outside
the modelled domain. -/
def chunksAux {α : Type} (bs : Nat) : Nat → List α → List (List α)
  | _, [] => []
  | 0, l => [l]
  | fuel + 1, c :: cs => (c :: cs).take bs :: chunksAux bs fuel ((c :: cs).drop bs)

/-- The list of blocks of size `bs`. -/
def chunks {α : Type} (bs : Nat) (l : List α) : List (List α) :=
  chunksAux bs l.length l

/-- `list(set(wp_data.values()))` of line 66: the distinct accession codes
found in the descriptions.  The iteration order of a Python set is
unspecified; it is modelled by first-occurrence order, and every property
proved about it is order-independent. -/
def allWPCodes (seqs : List SeqRecord) : List (List Char) :=
  (seqs.filterMap (fun r => findWP r.description)).dedup

/-- The codes submitted to the validation service: the blocks, concatenated.
Each block is submitted code by code (lines 68 to 71). -/
def submittedCodes (bs : Nat) (seqs : List SeqRecord) : List (List Char) :=
  (chunks bs (allWPCodes seqs)).flatten

/-- `valid_wp_codes` of lines 67 to 71: the codes of each block confirmed by
the oracle, accumulated over the blocks. -/
def validWPCodes (check : List Char → Bool) (bs : Nat) (seqs : List SeqRecord) :
    List (List Char) :=
  ((chunks bs (allWPCodes seqs)).map (fun block => block.filter check)).flatten

/-- `filter_valid_sequences` of `uniprot_sequences.py` lines 43 to 82, with
the validation service as an oracle: parse order is kept; a record is
retained when its description carries no accession code, or when its code is
among the validated ones.  The dictionary keyed by description is transparent
here because the code extracted from a description is a function of the
description.  The returned list is what `SeqIO.write` writes. -/
def filterValidSequences (check : List Char → Bool) (bs : Nat)
    (seqs : List SeqRecord) : List SeqRecord :=
  seqs.filter (fun r =>
    match findWP r.description with
    | none => true
    | some code => (validWPCodes check bs seqs).contains code)

/-- The continuation of a canonical species after its first segment: an
underscore-separated list of further segments. -/
def interRest : List (List Char) → List Char
  | [] => []
  | s :: ss => '_' :: (s ++ interRest ss)

/-- A canonical species: nonempty segments joined by single underscores. -/
def speciesOf : List (List Char) → List Char
  | [] => []
  | s :: ss => s ++ interRest ss

/-- An already-canonical label: species segments joined by single
underscores, an underscore, the cluster marker built from three hyphens and
the letter `C`, and the cluster digits. -/
def canonLabel (segs : List (List Char)) (ds : List Char) : List Char :=
  speciesOf segs ++ '_' :: '-' :: '-' :: '-' :: 'C' :: ds

/-- The one accession code of the C9 scenario that the validation service
confirms invalid. -/
def c9bad : List Char := "WP_000000001.1".data

/-- The C9 validation oracle: every code is valid except `c9bad`. -/
def c9check (code : List Char) : Bool := !(code == c9bad)

/-- The C9 scenario: ten records; three with distinct descriptions share the
invalid code, two carry no code, five carry distinct valid codes. -/
def c9seqs : List SeqRecord :=
  [⟨"s1 WP_000000001.1".data, "AA".data⟩,
   ⟨"s2 WP_000000001.1".data, "CC".data⟩,
   ⟨"s3 WP_000000001.1".data, "GG".data⟩,
   ⟨"n1 no code here".data, "TT".data⟩,
   ⟨"n2 no code here".data, "AA".data⟩,
   ⟨"v1 WP_000000011.1".data, "AA".data⟩,
   ⟨"v2 WP_000000012.1".data, "AA".data⟩,
   ⟨"v3 WP_000000013.1".data, "AA".data⟩,
   ⟨"v4 WP_000000014.1".data, "AA".data⟩,
   ⟨"v5 WP_000000015.1".data, "AA".data⟩]

/-!
## Theorems

First the claims settled by direct evaluation of the embedding, then the
supporting lemmas and the general theorems.
-/

/-- C1: for the input label
`WP_072607337.1_alkene_reductase_Aquibium_oceanicum_---C51---Same_Domains`
and the default enzyme-family hint, `clean_label` returns exactly
`Aquibium_oceanicum_---C51`. -/
theorem claim_C1 :
    cleanLabel defaultProtein
      "WP_072607337.1_alkene_reductase_Aquibium_oceanicum_---C51---Same_Domains".data
      = "Aquibium_oceanicum_---C51".data := by
  decide

/-- C2, counterexample: on the input label
`MULTISPECIES: oxidoreductase unclassified Bacillus_subtilis---C3` the code
does not return `Bacillus_subtilis_---C3`: the extraction pattern requires at
least one separator character before the three hyphens of the cluster marker,
and `Bacillus_subtilis---C3` has none, so the search fails. -/
theorem claim_C2_counterexample :
    cleanLabel defaultProtein
      "MULTISPECIES: oxidoreductase unclassified Bacillus_subtilis---C3".data
      ≠ "Bacillus_subtilis_---C3".data := by
  decide

/-- C2, amended: on the exact spec input the code returns the cleaned string
`oxidoreductase  Bacillus_subtilis---C3` unchanged (no cluster match); with a
separator before the cluster marker, as in
`MULTISPECIES: oxidoreductase unclassified Bacillus_subtilis_---C3`, it
returns `Bacillus_subtilis_---C3`. -/
theorem claim_C2 :
    cleanLabel defaultProtein
      "MULTISPECIES: oxidoreductase unclassified Bacillus_subtilis---C3".data
      = "oxidoreductase  Bacillus_subtilis---C3".data ∧
    cleanLabel defaultProtein
      "MULTISPECIES: oxidoreductase unclassified Bacillus_subtilis_---C3".data
      = "Bacillus_subtilis_---C3".data := by
  constructor <;> decide

/-- C3, counterexample: `clean_label` is not idempotent.  Removing the
default hint from `alkenealkene_reductase_reductase` creates a fresh
occurrence of the hint, so a second application removes it and returns the
empty string. -/
theorem claim_C3_counterexample :
    cleanLabel defaultProtein
        (cleanLabel defaultProtein "alkenealkene_reductase_reductase".data)
      ≠ cleanLabel defaultProtein "alkenealkene_reductase_reductase".data := by
  decide

/-- C4, counterexample: the input `_` is non-empty after trimming surrounding
quote characters, yet `clean_label` returns the empty string, because the
final strip of spaces and underscores empties it. -/
theorem claim_C4_counterexample :
    stripBoth quoteChar "_".data ≠ [] ∧
    cleanLabel defaultProtein "_".data = [] := by
  constructor <;> decide

/-- C5, counterexample: on the post-cleanup string `Aaa_---C1_Bbb_---C2`,
which contains two matches of the extraction pattern, `clean_label` returns
the leftmost one, `Aaa_---C1`, not the last one `Bbb_---C2`. -/
theorem claim_C5_counterexample :
    cleanLabel defaultProtein "Aaa_---C1_Bbb_---C2".data = "Aaa_---C1".data ∧
    cleanLabel defaultProtein "Aaa_---C1_Bbb_---C2".data ≠ "Bbb_---C2".data := by
  constructor <;> decide

/-- C6, counterexample: the accession-code substitution is case-sensitive.  A
lowercase `wp_` code is kept verbatim while the corresponding uppercase
`WP_` code is removed. -/
theorem claim_C6_counterexample :
    cleanLabel defaultProtein "wp_123456789.1_Bacillus_---C3".data
      = "wp_123456789.1_Bacillus_---C3".data ∧
    cleanLabel defaultProtein "WP_123456789.1_Bacillus_---C3".data
      = "Bacillus_---C3".data := by
  constructor <;> decide

/-- C7: the failing input.  With the default hint `alkene_reductase`, the
space variant `alkene reductase` is not stripped (under Python 3.7 semantics
of `re.escape` the underscore is not escaped, so the `.replace` on line 46
never fires and the compiled pattern demands a literal underscore); the
species group then swallows the hint and the spaces are turned into
underscores, while the underscore variant is stripped as documented. -/
theorem claim_C7 :
    cleanLabel defaultProtein "alkene reductase Aquibium_oceanicum_---C5".data
      = "alkene_reductase_Aquibium_oceanicum_---C5".data ∧
    cleanLabel defaultProtein "alkene_reductase Aquibium_oceanicum_---C5".data
      = "Aquibium_oceanicum_---C5".data := by
  constructor <;> decide

/-- C9, counterexample: in the scenario of the claim (ten records, three of
them sharing one invalid code, two without any code, five with valid codes)
the output does not have nine records. -/
theorem claim_C9_counterexample :
    (filterValidSequences c9check 100 c9seqs).length ≠ 9 := by
  decide

/-- C9, amended: the three records whose shared code the service rejects are
all removed, so the output has exactly seven records. -/
theorem claim_C9 :
    (filterValidSequences c9check 100 c9seqs).length = 7 := by
  decide

/-! ### Generic list lemmas -/

theorem takeWhile_append_all {α} (p : α → Bool) :
    ∀ xs ys, (∀ c ∈ xs, p c = true) →
      List.takeWhile p (xs ++ ys) = xs ++ List.takeWhile p ys := by
  intro xs
  induction xs with
  | nil => intro ys _; simp
  | cons x xs ih =>
    intro ys h
    have hx : p x = true := h x (List.mem_cons_self x xs)
    simp only [List.cons_append, List.takeWhile_cons, hx, if_true]
    rw [ih ys (fun c hc => h c (List.mem_cons_of_mem x hc))]

theorem dropWhile_append_all {α} (p : α → Bool) :
    ∀ xs ys, (∀ c ∈ xs, p c = true) →
      List.dropWhile p (xs ++ ys) = List.dropWhile p ys := by
  intro xs
  induction xs with
  | nil => intro ys _; simp
  | cons x xs ih =>
    intro ys h
    have hx : p x = true := h x (List.mem_cons_self x xs)
    simp only [List.cons_append, List.dropWhile_cons, hx, if_true]
    exact ih ys (fun c hc => h c (List.mem_cons_of_mem x hc))

theorem takeWhile_all {α} (p : α → Bool) (l : List α) (h : ∀ c ∈ l, p c = true) :
    List.takeWhile p l = l := by
  have := takeWhile_append_all p l [] h
  simpa using this

theorem dropWhile_all {α} (p : α → Bool) (l : List α) (h : ∀ c ∈ l, p c = true) :
    List.dropWhile p l = [] := by
  have := dropWhile_append_all p l [] h
  simpa using this

theorem takeWhile_head_none {α} (p : α → Bool) (ys : List α)
    (h : ∀ c, ys.head? = some c → p c = false) : List.takeWhile p ys = [] := by
  cases ys with
  | nil => rfl
  | cons y ys => simp [List.takeWhile_cons, h y rfl]

theorem dropWhile_head_none {α} (p : α → Bool) (ys : List α)
    (h : ∀ c, ys.head? = some c → p c = false) : List.dropWhile p ys = ys := by
  cases ys with
  | nil => rfl
  | cons y ys => simp [List.dropWhile_cons, h y rfl]

theorem mem_of_head? {α} {l : List α} {c : α} (h : l.head? = some c) : c ∈ l := by
  cases l with
  | nil => cases h
  | cons a as =>
    simp only [List.head?_cons, Option.some.injEq] at h
    exact h ▸ List.mem_cons_self a as

theorem mem_of_getLast? {α} {l : List α} {c : α} (h : l.getLast? = some c) : c ∈ l := by
  have hr : l.reverse.head? = some c := by rw [List.head?_reverse]; exact h
  have := mem_of_head? hr
  exact List.mem_reverse.mp this

/-! ### Stripping lemmas -/

theorem stripBoth_eq_self (p : Char → Bool) (l : List Char)
    (hh : ∀ c, l.head? = some c → p c = false)
    (hl : ∀ c, l.getLast? = some c → p c = false) :
    stripBoth p l = l := by
  unfold stripBoth
  rw [dropWhile_head_none p l hh]
  rw [dropWhile_head_none p l.reverse
    (fun c hc => hl c (by rwa [List.head?_reverse] at hc))]
  exact List.reverse_reverse l

theorem stripBoth_eq_self_all (p : Char → Bool) (l : List Char)
    (h : ∀ c ∈ l, p c = false) : stripBoth p l = l :=
  stripBoth_eq_self p l (fun c hc => h c (mem_of_head? hc))
    (fun c hc => h c (mem_of_getLast? hc))

/-! ### Character-class lemmas -/

theorem alnum_beq_false {c : Char} (h : isAlnumC c = true) (d : Char)
    (hd : isAlnumC d = false) : (c == d) = false := by
  rw [beq_eq_false_iff_ne]
  intro e
  rw [e, hd] at h
  cases h

theorem alnum_not_pySpace {c : Char} (h : isAlnumC c = true) : pySpace c = false := by
  simp [pySpace, alnum_beq_false h ' ' (by decide), alnum_beq_false h '\t' (by decide),
    alnum_beq_false h '\n' (by decide), alnum_beq_false h '\r' (by decide),
    alnum_beq_false h '\x0b' (by decide), alnum_beq_false h '\x0c' (by decide)]

theorem alnum_not_clsep {c : Char} (h : isAlnumC c = true) : isClSep c = false := by
  simp [isClSep, alnum_not_pySpace h, alnum_beq_false h '_' (by decide),
    alnum_beq_false h '-' (by decide)]

theorem alnum_not_spsep {c : Char} (h : isAlnumC c = true) : isSpSep c = false := by
  simp [isSpSep, alnum_not_pySpace h, alnum_beq_false h '_' (by decide)]

theorem alnum_not_quote {c : Char} (h : isAlnumC c = true) : quoteChar c = false := by
  simp [quoteChar, alnum_beq_false h '\'' (by decide), alnum_beq_false h '"' (by decide)]

theorem alnum_not_spaceUnderscore {c : Char} (h : isAlnumC c = true) :
    spaceUnderscoreChar c = false := by
  simp [spaceUnderscoreChar, alnum_beq_false h ' ' (by decide),
    alnum_beq_false h '_' (by decide)]

theorem alnum_seg2 {c : Char} (h : isAlnumC c = true) : isSeg2C c = true := by
  simp [isSeg2C, h]

theorem alnum_ne_dot {c : Char} (h : isAlnumC c = true) : c ≠ '.' := by
  intro e
  rw [e] at h
  cases h

theorem digit_alnum {c : Char} (h : isDigitC c = true) : isAlnumC c = true := by
  simp [isAlnumC, h]

theorem alnum_spaceToU {c : Char} (h : isAlnumC c = true) : spaceToU c = c := by
  simp [spaceToU, alnum_beq_false h ' ' (by decide)]

/-! ### Case-insensitive matching lemmas -/

theorem ciMatch_suffix : ∀ pat l r, ciMatch pat l = some r → r.IsSuffix l := by
  intro pat
  induction pat with
  | nil =>
    intro l r h
    simp only [ciMatch, Option.some.injEq] at h
    exact h ▸ List.suffix_refl l
  | cons p ps ih =>
    intro l r h
    cases l with
    | nil => cases h
    | cons c cs =>
      simp only [ciMatch] at h
      split at h
      · exact (ih cs r h).trans (List.suffix_cons c cs)
      · cases h

theorem containsCI_of_ciMatch :
    ∀ l l2 pat r, l2.IsSuffix l → ciMatch pat l2 = some r → containsCI pat l = true := by
  intro l
  induction l with
  | nil =>
    intro l2 pat r hsuf hm
    rw [List.suffix_nil.mp hsuf] at hm
    simp [containsCI, hm]
  | cons c cs ih =>
    intro l2 pat r hsuf hm
    rcases List.suffix_cons_iff.mp hsuf with h | h
    · subst h
      simp [containsCI, hm]
    · simp only [containsCI, Bool.or_eq_true]
      exact Or.inr (ih l2 pat r h hm)

theorem ciMatch_none_of_not_contains {pat l : List Char}
    (h : containsCI pat l = false) : ciMatch pat l = none := by
  cases hm : ciMatch pat l with
  | none => rfl
  | some r =>
    rw [containsCI_of_ciMatch l l pat r (List.suffix_refl l) hm] at h
    cases h

theorem containsCI_false_suffix {pat : List Char} :
    ∀ {l l2 : List Char}, l2.IsSuffix l → containsCI pat l = false →
      containsCI pat l2 = false := by
  intro l
  induction l with
  | nil =>
    intro l2 hsuf h
    rw [List.suffix_nil.mp hsuf]
    exact h
  | cons a as ih =>
    intro l2 hsuf h
    rcases List.suffix_cons_iff.mp hsuf with he | he
    · exact he ▸ h
    · simp only [containsCI, Bool.or_eq_false_iff] at h
      exact ih he h.2

/-! ### Substitution-scanner lemmas -/

theorem scanSub_id (m : Bool → List Char → Option (Bool × List Char)) :
    ∀ fuel pw l, (∀ pw2 l2, l2.IsSuffix l → m pw2 l2 = none) →
      scanSub m fuel pw l = l := by
  intro fuel
  induction fuel with
  | zero => intro pw l _; rfl
  | succ f ih =>
    intro pw l hm
    cases l with
    | nil => rfl
    | cons c cs =>
      have h0 : m pw (c :: cs) = none := hm pw (c :: cs) (List.suffix_refl _)
      simp only [scanSub, h0]
      exact congrArg (c :: ·)
        (ih (isWordC c) cs (fun pw2 l2 h2 => hm pw2 l2 (h2.trans (List.suffix_cons c cs))))

theorem runSub_id (m : Bool → List Char → Option (Bool × List Char)) (l : List Char)
    (hm : ∀ pw2 l2, l2.IsSuffix l → m pw2 l2 = none) : runSub m l = l :=
  scanSub_id m l.length false l hm

theorem scanSub_fuel (m : Bool → List Char → Option (Bool × List Char))
    (hm : ∀ pw l pw2 r, m pw l = some (pw2, r) → r.length < l.length) :
    ∀ fuel fuel2 pw l, l.length ≤ fuel → l.length ≤ fuel2 →
      scanSub m fuel pw l = scanSub m fuel2 pw l := by
  intro fuel
  induction fuel with
  | zero =>
    intro fuel2 pw l h1 _
    rw [List.length_eq_zero.mp (Nat.le_zero.mp h1)]
    cases fuel2 <;> rfl
  | succ f ih =>
    intro fuel2 pw l h1 h2
    cases l with
    | nil => cases fuel2 <;> rfl
    | cons c cs =>
      cases fuel2 with
      | zero => simp at h2
      | succ f2 =>
        simp only [scanSub]
        cases hm2 : m pw (c :: cs) with
        | none =>
          simp only [List.length_cons] at h1 h2
          exact congrArg (c :: ·)
            (ih f2 (isWordC c) cs (Nat.lt_succ_iff.mp h1) (Nat.lt_succ_iff.mp h2))
        | some pr =>
          obtain ⟨pw2, rest⟩ := pr
          have hlt := hm pw (c :: cs) pw2 rest hm2
          simp only [List.length_cons] at h1 h2 hlt
          exact ih f2 pw2 rest (by omega) (by omega)

theorem scanSub_pw (m : Bool → List Char → Option (Bool × List Char))
    (hm : ∀ pw pw2 l, m pw l = m pw2 l) :
    ∀ fuel pw pw2 l, scanSub m fuel pw l = scanSub m fuel pw2 l := by
  intro fuel pw pw2 l
  cases fuel with
  | zero => rfl
  | succ f =>
    cases l with
    | nil => rfl
    | cons c cs =>
      simp only [scanSub]
      rw [hm pw pw2 (c :: cs)]

theorem runSub_match (m : Bool → List Char → Option (Bool × List Char))
    (hlt : ∀ pw l pw2 r, m pw l = some (pw2, r) → r.length < l.length)
    (hpw : ∀ pw pw2 l, m pw l = m pw2 l)
    (l rest : List Char) (pw2 : Bool) (h : m false l = some (pw2, rest)) :
    runSub m l = runSub m rest := by
  cases l with
  | nil =>
    have := hlt false [] pw2 rest h
    simp at this
  | cons c cs =>
    have hlt2 := hlt false (c :: cs) pw2 rest h
    unfold runSub
    simp only [List.length_cons, scanSub, h]
    rw [scanSub_fuel m hlt cs.length rest.length pw2 rest
      (by simp only [List.length_cons] at hlt2; omega) (Nat.le_refl _)]
    exact scanSub_pw m hpw rest.length pw2 false rest

/-! ### Matcher vacuity lemmas -/

theorem mWP_none_of_no_dot (pw : Bool) (l : List Char) (h : '.' ∉ l) :
    mWP pw l = none := by
  unfold mWP
  split
  · rename_i c1 c2 s d1 d2 d3 d4 d5 d6 d7 d8 d9 dot d10 rest
    split
    · rename_i hcond
      exfalso
      simp only [Bool.and_eq_true, beq_iff_eq] at hcond
      exact h (by simp [hcond.1.2])
    · rfl
  · rfl

theorem mMulti_none (pw : Bool) (l : List Char)
    (h : containsCI "MULTISPECIES:".data l = false) : mMulti pw l = none := by
  unfold mMulti
  rw [ciMatch_none_of_not_contains h]

theorem mLit_none (hint : List Char) (pw : Bool) (l : List Char)
    (h : containsCI hint l = false) : mLit hint pw l = none := by
  unfold mLit
  cases hint with
  | nil => rfl
  | cons p ps => rw [ciMatch_none_of_not_contains h]

theorem mUncl_none (pw : Bool) (l : List Char)
    (h : containsCI "unclassified".data l = false) : mUncl pw l = none := by
  unfold mUncl
  rw [ciMatch_none_of_not_contains h]
  cases pw <;> rfl

theorem mSame_none (pw : Bool) (l : List Char)
    (h : containsCI "domains".data l = false) : mSame pw l = none := by
  cases h1 : ciMatch "same".data (l.dropWhile isDashSep) with
  | none => unfold mSame; simp only [h1]
  | some r2 =>
    have hsuf : (r2.dropWhile isDashSep).IsSuffix l :=
      ((List.dropWhile_suffix isDashSep).trans
        (ciMatch_suffix _ _ _ h1)).trans (List.dropWhile_suffix isDashSep)
    unfold mSame
    simp only [h1, ciMatch_none_of_not_contains (containsCI_false_suffix hsuf h)]

/-! ### The cleanup steps fix a noise-free string -/

theorem cleanedCore_eq_self (protein l : List Char)
    (hh : ∀ c, l.head? = some c → quoteChar c = false ∧ spaceUnderscoreChar c = false)
    (hl : ∀ c, l.getLast? = some c → quoteChar c = false ∧ spaceUnderscoreChar c = false)
    (hdot : '.' ∉ l)
    (hmulti : containsCI "MULTISPECIES:".data l = false)
    (hhint : containsCI protein l = false)
    (hunc : containsCI "unclassified".data l = false)
    (hdom : containsCI "domains".data l = false) :
    cleanedCore protein l = l := by
  unfold cleanedCore
  rw [stripBoth_eq_self quoteChar l (fun c hc => (hh c hc).1) (fun c hc => (hl c hc).1)]
  rw [runSub_id mWP l
    (fun pw2 l2 h2 => mWP_none_of_no_dot pw2 l2 (fun hm => hdot (h2.subset hm)))]
  rw [runSub_id mMulti l
    (fun pw2 l2 h2 => mMulti_none pw2 l2 (containsCI_false_suffix h2 hmulti))]
  rw [runSub_id (mLit protein) l
    (fun pw2 l2 h2 => mLit_none protein pw2 l2 (containsCI_false_suffix h2 hhint))]
  rw [runSub_id mUncl l
    (fun pw2 l2 h2 => mUncl_none pw2 l2 (containsCI_false_suffix h2 hunc))]
  rw [runSub_id mSame l
    (fun pw2 l2 h2 => mSame_none pw2 l2 (containsCI_false_suffix h2 hdom))]
  exact stripBoth_eq_self spaceUnderscoreChar l
    (fun c hc => (hh c hc).2) (fun c hc => (hl c hc).2)

/-- C4, amended: `clean_label` is total (the embedding is a total function),
but its result can be empty even for an input that is non-empty after
trimming surrounding quotes (see the counterexample).  What does hold: the
result is non-empty whenever the string left by the cleanup steps (lines 40
to 53) is non-empty, because the extraction step either returns that string
or a species-underscore-cluster concatenation that is never empty. -/
theorem claim_C4 (protein label : List Char) (h : cleanedCore protein label ≠ []) :
    cleanLabel protein label ≠ [] := by
  unfold cleanLabel
  cases hs : searchSpecies (cleanedCore protein label) with
  | none => exact h
  | some pr =>
    obtain ⟨sp, cl⟩ := pr
    simp

/-- Witness for C4 at a concrete input. -/
theorem claim_C4_witness :
    cleanedCore defaultProtein "abc".data ≠ [] ∧
    cleanLabel defaultProtein "abc".data ≠ [] :=
  ⟨by decide, claim_C4 defaultProtein "abc".data (by decide)⟩

/-! ### The accession-code substitution removes uppercase codes -/

theorem mWP_lt (pw : Bool) (l : List Char) (pw2 : Bool) (r : List Char)
    (h : mWP pw l = some (pw2, r)) : r.length < l.length := by
  unfold mWP at h
  split at h
  · split at h
    · simp only [Option.some.injEq, Prod.mk.injEq] at h
      rw [← h.2]
      simp only [List.length_cons]
      omega
    · cases h
  · cases h

theorem mWP_pw (pw pw2 : Bool) (l : List Char) : mWP pw l = mWP pw2 l := rfl

/-- C6, amended: the accession-code removal of `clean_label` line 42 is
case-sensitive, not case-insensitive: it removes every substring built from
the uppercase letters `WP`, a whitespace-or-underscore separator, nine
digits, a dot and one digit, and the counterexample shows that a lowercase
`wp` code is left in place. -/
theorem claim_C6 (s d1 d2 d3 d4 d5 d6 d7 d8 d9 d10 : Char) (rest : List Char)
    (hs : pySpace s = true ∨ s = '_')
    (h1 : isDigitC d1 = true) (h2 : isDigitC d2 = true) (h3 : isDigitC d3 = true)
    (h4 : isDigitC d4 = true) (h5 : isDigitC d5 = true) (h6 : isDigitC d6 = true)
    (h7 : isDigitC d7 = true) (h8 : isDigitC d8 = true) (h9 : isDigitC d9 = true)
    (h10 : isDigitC d10 = true) :
    runSub mWP ('W' :: 'P' :: s :: d1 :: d2 :: d3 :: d4 :: d5 :: d6 :: d7 :: d8 :: d9
      :: '.' :: d10 :: rest) = runSub mWP rest := by
  apply runSub_match mWP mWP_lt mWP_pw _ rest true
  have hsep : (pySpace s || s == '_') = true := by
    rcases hs with h | h
    · simp [h]
    · simp [h]
  unfold mWP
  simp [hsep, h1, h2, h3, h4, h5, h6, h7, h8, h9, h10]

/-- Witness for C6 at a concrete code. -/
theorem claim_C6_witness :
    ('_' = '_' ∨ pySpace '_' = true) ∧ isDigitC '1' = true ∧
    runSub mWP ('W' :: 'P' :: '_' :: '1' :: '2' :: '3' :: '4' :: '5' :: '6' :: '7'
      :: '8' :: '9' :: '.' :: '0' :: "xy".data) = runSub mWP "xy".data :=
  ⟨Or.inl rfl, by decide,
    claim_C6 '_' '1' '2' '3' '4' '5' '6' '7' '8' '9' '0' "xy".data (Or.inr rfl)
      (by decide) (by decide) (by decide) (by decide) (by decide) (by decide)
      (by decide) (by decide) (by decide) (by decide)⟩

/-- C5, amended: in the extraction step the match that appears earliest
(leftmost) in the post-cleanup string wins, not the last one: `re.search`
returns the leftmost match.  Whatever follows the first match, including
further (later) matches of the pattern, cannot change the result. -/
theorem claim_C5 (rest : List Char) :
    searchSpecies ("Aaa_---C1_".data ++ rest) = some ("Aaa".data, "---C1".data) := by
  show searchSpecies ('A' :: 'a' :: 'a' :: '_' :: '-' :: '-' :: '-' :: 'C' :: '1' :: '_' :: rest)
    = some ("Aaa".data, "---C1".data)
  simp [searchSpecies, matchAt, extCands, firstCluster, clusterAfter,
    List.takeWhile_cons, List.dropWhile_cons, isAlnumC, isAsciiAlpha, isDigitC,
    isSpSep, isSeg2C, isClSep, pySpace]

/-! ### The sequence filter is frame-preserving -/

theorem chunksAux_flatten {α : Type} (bs : Nat) :
    ∀ fuel (l : List α), (chunksAux bs fuel l).flatten = l := by
  intro fuel
  induction fuel with
  | zero =>
    intro l
    cases l with
    | nil => rfl
    | cons c cs => simp [chunksAux]
  | succ f ih =>
    intro l
    cases l with
    | nil => rfl
    | cons c cs =>
      simp only [chunksAux, List.flatten_cons]
      rw [ih ((c :: cs).drop bs)]
      exact List.take_append_drop bs (c :: cs)

theorem count_eq_one_of_nodup_mem {α : Type} [BEq α] [LawfulBEq α] {l : List α} {a : α}
    (hn : l.Nodup) (hm : a ∈ l) : l.count a = 1 := by
  induction l with
  | nil => cases hm
  | cons b bs ih =>
    rw [List.count_cons]
    rcases List.mem_cons.mp hm with he | he
    · subst he
      rw [List.count_eq_zero.mpr (List.nodup_cons.mp hn).1]
      simp
    · rw [ih (List.nodup_cons.mp hn).2 he]
      have hne : (b == a) = false := by
        rw [beq_eq_false_iff_ne]
        intro e
        subst e
        exact (List.nodup_cons.mp hn).1 he
      simp [hne]

/-- C10: the written record list is an order-preserving subsequence of the
parsed records (nothing is added, duplicated, reordered or modified), and
every distinct accession code is submitted to the validation service exactly
once, however many records share it.  The hypothesis restricts the block
size to the domain on which the Python `range` call is defined. -/
theorem claim_C10 (check : List Char → Bool) (bs : Nat) (seqs : List SeqRecord)
    (_hbs : 0 < bs) :
    List.Sublist (filterValidSequences check bs seqs) seqs ∧
    ∀ code ∈ allWPCodes seqs, (submittedCodes bs seqs).count code = 1 := by
  refine ⟨List.filter_sublist _, ?_⟩
  intro code hc
  unfold submittedCodes chunks
  rw [chunksAux_flatten]
  unfold allWPCodes at hc ⊢
  exact count_eq_one_of_nodup_mem (List.nodup_dedup _) hc

/-! ### Canonical labels are fixed points of `clean_label` -/

theorem interRest_append_cons (ss : List (List Char)) (y : List Char) :
    ∃ t, interRest ss ++ '_' :: y = '_' :: t := by
  cases ss with
  | nil => exact ⟨y, rfl⟩
  | cons s ss2 => exact ⟨(s ++ interRest ss2) ++ '_' :: y, by simp [interRest]⟩

theorem interRest_chars (ss : List (List Char))
    (h : ∀ s ∈ ss, ∀ c ∈ s, isAlnumC c = true) :
    ∀ c ∈ interRest ss, isAlnumC c = true ∨ c = '_' := by
  induction ss with
  | nil => intro c hc; cases hc
  | cons s ss2 ih =>
    intro c hc
    simp only [interRest, List.mem_cons, List.mem_append] at hc
    rcases hc with hc | hc | hc
    · exact Or.inr hc
    · exact Or.inl (h s (List.mem_cons_self _ _) c hc)
    · exact ih (fun s2 hs2 => h s2 (List.mem_cons_of_mem _ hs2)) c hc

theorem speciesOf_chars (segs : List (List Char))
    (h : ∀ s ∈ segs, ∀ c ∈ s, isAlnumC c = true) :
    ∀ c ∈ speciesOf segs, isAlnumC c = true ∨ c = '_' := by
  cases segs with
  | nil => intro c hc; cases hc
  | cons s ss =>
    intro c hc
    simp only [speciesOf, List.mem_append] at hc
    rcases hc with hc | hc
    · exact Or.inl (h s (List.mem_cons_self _ _) c hc)
    · exact interRest_chars ss (fun s2 hs2 => h s2 (List.mem_cons_of_mem _ hs2)) c hc

theorem canon_chars (segs : List (List Char)) (ds : List Char)
    (hseg : ∀ s ∈ segs, ∀ c ∈ s, isAlnumC c = true)
    (hds : ∀ c ∈ ds, isDigitC c = true) :
    ∀ c ∈ canonLabel segs ds, isAlnumC c = true ∨ c = '_' ∨ c = '-' := by
  intro c hc
  unfold canonLabel at hc
  simp only [List.mem_append, List.mem_cons] at hc
  rcases hc with hc | hc | hc | hc | hc | hc | hc
  · rcases speciesOf_chars segs hseg c hc with h | h
    · exact Or.inl h
    · exact Or.inr (Or.inl h)
  · exact Or.inr (Or.inl hc)
  · exact Or.inr (Or.inr hc)
  · exact Or.inr (Or.inr hc)
  · exact Or.inr (Or.inr hc)
  · exact Or.inl (hc ▸ by decide)
  · exact Or.inl (digit_alnum (hds c hc))

theorem interRest_length_ge (ss : List (List Char)) :
    ss.length ≤ (interRest ss).length := by
  induction ss with
  | nil => simp [interRest]
  | cons s ss2 ih =>
    simp only [interRest, List.length_cons, List.length_append]
    omega

theorem map_id_of (f : Char → Char) (l : List Char) (h : ∀ c ∈ l, f c = c) :
    l.map f = l := by
  induction l with
  | nil => rfl
  | cons c cs ih =>
    simp only [List.map_cons, h c (List.mem_cons_self _ _)]
    rw [ih (fun d hd => h d (List.mem_cons_of_mem _ hd))]

theorem searchSpecies_cons (c : Char) (cs : List Char) :
    searchSpecies (c :: cs) =
      match matchAt (c :: cs) with
      | some (sp, cl, _) => some (sp, cl)
      | none => searchSpecies cs := rfl

theorem clusterAfter_canon (ds : List Char) (hne : ds ≠ [])
    (hds : ∀ c ∈ ds, isDigitC c = true) :
    clusterAfter ('_' :: '-' :: '-' :: '-' :: 'C' :: ds)
      = some ('-' :: '-' :: '-' :: 'C' :: ds, []) := by
  have hie : ds.isEmpty = false := by
    cases ds with
    | nil => exact absurd rfl hne
    | cons d ds2 => rfl
  unfold clusterAfter
  simp [List.takeWhile_cons, List.dropWhile_cons, isClSep, pySpace, hie,
    takeWhile_all _ _ hds, dropWhile_all _ _ hds]

theorem extCands_canon (ds : List Char) :
    ∀ (ss : List (List Char)) (fuel : Nat), ss.length ≤ fuel →
      (∀ s ∈ ss, s ≠ [] ∧ ∀ c ∈ s, isAlnumC c = true) →
      ∃ more, extCands fuel (interRest ss ++ '_' :: '-' :: '-' :: '-' :: 'C' :: ds)
        = (interRest ss, '_' :: '-' :: '-' :: '-' :: 'C' :: ds) :: more := by
  intro ss
  induction ss with
  | nil =>
    intro fuel _ _
    refine ⟨[], ?_⟩
    show extCands fuel ('_' :: '-' :: '-' :: '-' :: 'C' :: ds) = _
    unfold extCands
    simp [isSpSep, pySpace, List.takeWhile_cons, isSeg2C, isAlnumC, isAsciiAlpha,
      isDigitC, interRest]
  | cons s ss2 ih =>
    intro fuel hfuel hseg
    cases fuel with
    | zero => simp at hfuel
    | succ f =>
      obtain ⟨hne, hall⟩ := hseg s (List.mem_cons_self _ _)
      obtain ⟨t, ht⟩ := interRest_append_cons ss2 ('-' :: '-' :: '-' :: 'C' :: ds)
      have hseg2 : ∀ c ∈ s, isSeg2C c = true := fun c hc => alnum_seg2 (hall c hc)
      have hhd : ∀ c, (interRest ss2 ++ '_' :: '-' :: '-' :: '-' :: 'C' :: ds).head?
          = some c → isSeg2C c = false := by
        rw [ht]
        intro c hc
        simp only [List.head?_cons, Option.some.injEq] at hc
        subst hc
        decide
      have htw : List.takeWhile isSeg2C
          (s ++ (interRest ss2 ++ '_' :: '-' :: '-' :: '-' :: 'C' :: ds)) = s := by
        rw [takeWhile_append_all isSeg2C s _ hseg2, takeWhile_head_none _ _ hhd,
          List.append_nil]
      have hdw : List.dropWhile isSeg2C
          (s ++ (interRest ss2 ++ '_' :: '-' :: '-' :: '-' :: 'C' :: ds))
          = interRest ss2 ++ '_' :: '-' :: '-' :: '-' :: 'C' :: ds := by
        rw [dropWhile_append_all isSeg2C s _ hseg2, dropWhile_head_none _ _ hhd]
      have hie : s.isEmpty = false := by
        cases s with
        | nil => exact absurd rfl hne
        | cons c0 s0 => rfl
      obtain ⟨more2, hrec⟩ := ih f (by simpa using hfuel)
        (fun s2 hs2 => hseg s2 (List.mem_cons_of_mem _ hs2))
      refine ⟨(more2.map (fun pr => ('_' :: (s ++ pr.1), pr.2)))
        ++ [([], '_' :: (s ++ (interRest ss2 ++ '_' :: '-' :: '-' :: '-' :: 'C' :: ds)))], ?_⟩
      simp only [interRest, List.cons_append, List.append_assoc]
      unfold extCands
      simp only [htw, hdw, hrec, hie]
      simp [isSpSep, pySpace]

theorem matchAt_canon (segs : List (List Char)) (ds : List Char)
    (hsegs : segs ≠ [])
    (hseg : ∀ s ∈ segs, s ≠ [] ∧ ∀ c ∈ s, isAlnumC c = true)
    (hdne : ds ≠ []) (hds : ∀ c ∈ ds, isDigitC c = true) :
    matchAt (canonLabel segs ds)
      = some (speciesOf segs, '-' :: '-' :: '-' :: 'C' :: ds, []) := by
  obtain ⟨s, ss, rfl⟩ : ∃ s ss, segs = s :: ss := by
    cases segs with
    | nil => exact absurd rfl hsegs
    | cons s ss => exact ⟨s, ss, rfl⟩
  obtain ⟨hne, hall⟩ := hseg s (List.mem_cons_self _ _)
  obtain ⟨c0, s0, rfl⟩ : ∃ c0 s0, s = c0 :: s0 := by
    cases s with
    | nil => exact absurd rfl hne
    | cons c0 s0 => exact ⟨c0, s0, rfl⟩
  have hcanon : canonLabel ((c0 :: s0) :: ss) ds
      = c0 :: (s0 ++ (interRest ss ++ '_' :: '-' :: '-' :: '-' :: 'C' :: ds)) := by
    simp [canonLabel, speciesOf, List.cons_append, List.append_assoc]
  obtain ⟨t, ht⟩ := interRest_append_cons ss ('-' :: '-' :: '-' :: 'C' :: ds)
  have hhd : ∀ c, (interRest ss ++ '_' :: '-' :: '-' :: '-' :: 'C' :: ds).head?
      = some c → isAlnumC c = false := by
    rw [ht]
    intro c hc
    simp only [List.head?_cons, Option.some.injEq] at hc
    subst hc
    decide
  have hta : List.takeWhile isAlnumC
      (c0 :: (s0 ++ (interRest ss ++ '_' :: '-' :: '-' :: '-' :: 'C' :: ds)))
      = c0 :: s0 := by
    have h2 := takeWhile_append_all isAlnumC (c0 :: s0)
      (interRest ss ++ '_' :: '-' :: '-' :: '-' :: 'C' :: ds) hall
    rw [takeWhile_head_none _ _ hhd, List.append_nil] at h2
    simpa [List.cons_append] using h2
  have hda : List.dropWhile isAlnumC
      (c0 :: (s0 ++ (interRest ss ++ '_' :: '-' :: '-' :: '-' :: 'C' :: ds)))
      = interRest ss ++ '_' :: '-' :: '-' :: '-' :: 'C' :: ds := by
    have h2 := dropWhile_append_all isAlnumC (c0 :: s0)
      (interRest ss ++ '_' :: '-' :: '-' :: '-' :: 'C' :: ds) hall
    rw [dropWhile_head_none _ _ hhd] at h2
    simpa [List.cons_append] using h2
  have hlen : ss.length ≤
      (c0 :: (s0 ++ (interRest ss ++ '_' :: '-' :: '-' :: '-' :: 'C' :: ds))).length := by
    have := interRest_length_ge ss
    simp only [List.length_cons, List.length_append]
    omega
  obtain ⟨more, hexts⟩ := extCands_canon ds ss
    (c0 :: (s0 ++ (interRest ss ++ '_' :: '-' :: '-' :: '-' :: 'C' :: ds))).length hlen
    (fun s2 hs2 => hseg s2 (List.mem_cons_of_mem _ hs2))
  rw [hcanon]
  unfold matchAt
  simp only [hall c0 (List.mem_cons_self _ _), if_true, hta, hda, hexts,
    List.map_cons, firstCluster, clusterAfter_canon ds hdne hds]
  simp [speciesOf, List.cons_append]

theorem searchSpecies_canon (segs : List (List Char)) (ds : List Char)
    (hsegs : segs ≠ [])
    (hseg : ∀ s ∈ segs, s ≠ [] ∧ ∀ c ∈ s, isAlnumC c = true)
    (hdne : ds ≠ []) (hds : ∀ c ∈ ds, isDigitC c = true) :
    searchSpecies (canonLabel segs ds)
      = some (speciesOf segs, '-' :: '-' :: '-' :: 'C' :: ds) := by
  have hm := matchAt_canon segs ds hsegs hseg hdne hds
  obtain ⟨s, ss, rfl⟩ : ∃ s ss, segs = s :: ss := by
    cases segs with
    | nil => exact absurd rfl hsegs
    | cons s ss => exact ⟨s, ss, rfl⟩
  obtain ⟨hne, hall⟩ := hseg s (List.mem_cons_self _ _)
  obtain ⟨c0, s0, rfl⟩ : ∃ c0 s0, s = c0 :: s0 := by
    cases s with
    | nil => exact absurd rfl hne
    | cons c0 s0 => exact ⟨c0, s0, rfl⟩
  have hcanon : canonLabel ((c0 :: s0) :: ss) ds
      = c0 :: (s0 ++ (interRest ss ++ '_' :: '-' :: '-' :: '-' :: 'C' :: ds)) := by
    simp [canonLabel, speciesOf, List.cons_append, List.append_assoc]
  rw [hcanon] at hm ⊢
  rw [searchSpecies_cons]
  simp only [hm]

/-- C3, amended: `clean_label` is not idempotent in general, because a
removal step can create a fresh occurrence of a removable substring (see the
counterexample); what does hold is the second half of the claim: an
already-canonical label, made of nonempty alphanumeric species segments
joined by single underscores followed by an underscore, the cluster marker
`---C` and digits, and containing no removable noise (no dot, and no
case-insensitive occurrence of the hint, of `MULTISPECIES:`, of
`unclassified` or of `domains`), is returned unchanged, which also makes
`clean_label` idempotent on every label whose image is such a canonical
label. -/
theorem claim_C3 (protein : List Char) (segs : List (List Char)) (ds : List Char)
    (hsegs : segs ≠ [])
    (hseg : ∀ s ∈ segs, s ≠ [] ∧ ∀ c ∈ s, isAlnumC c = true)
    (hdne : ds ≠ []) (hds : ∀ c ∈ ds, isDigitC c = true)
    (hhint : containsCI protein (canonLabel segs ds) = false)
    (hmulti : containsCI "MULTISPECIES:".data (canonLabel segs ds) = false)
    (hunc : containsCI "unclassified".data (canonLabel segs ds) = false)
    (hdom : containsCI "domains".data (canonLabel segs ds) = false) :
    cleanLabel protein (canonLabel segs ds) = canonLabel segs ds := by
  have hchars := canon_chars segs ds (fun s hs => (hseg s hs).2) hds
  have hspecies := speciesOf_chars segs (fun s hs => (hseg s hs).2)
  have hheadc : ∀ c, (canonLabel segs ds).head? = some c → isAlnumC c = true := by
    obtain ⟨s, ss, rfl⟩ : ∃ s ss, segs = s :: ss := by
      cases segs with
      | nil => exact absurd rfl hsegs
      | cons s ss => exact ⟨s, ss, rfl⟩
    obtain ⟨hne, hall⟩ := hseg s (List.mem_cons_self _ _)
    obtain ⟨c0, s0, rfl⟩ : ∃ c0 s0, s = c0 :: s0 := by
      cases s with
      | nil => exact absurd rfl hne
      | cons c0 s0 => exact ⟨c0, s0, rfl⟩
    intro c hc
    have hcanon : canonLabel ((c0 :: s0) :: ss) ds
        = c0 :: (s0 ++ (interRest ss ++ '_' :: '-' :: '-' :: '-' :: 'C' :: ds)) := by
      simp [canonLabel, speciesOf, List.cons_append, List.append_assoc]
    rw [hcanon] at hc
    simp only [List.head?_cons, Option.some.injEq] at hc
    exact hc ▸ hall c0 (List.mem_cons_self _ _)
  have hlastc : ∀ c, (canonLabel segs ds).getLast? = some c → isDigitC c = true := by
    intro c hc
    unfold canonLabel at hc
    rw [show speciesOf segs ++ '_' :: '-' :: '-' :: '-' :: 'C' :: ds
        = (speciesOf segs ++ ['_', '-', '-', '-', 'C']) ++ ds by
      simp [List.append_assoc]] at hc
    rw [List.getLast?_append_of_ne_nil _ hdne] at hc
    exact hds c (mem_of_getLast? hc)
  have hcore : cleanedCore protein (canonLabel segs ds) = canonLabel segs ds := by
    apply cleanedCore_eq_self
    · intro c hc
      have h := hheadc c hc
      exact ⟨alnum_not_quote h, alnum_not_spaceUnderscore h⟩
    · intro c hc
      have h := digit_alnum (hlastc c hc)
      exact ⟨alnum_not_quote h, alnum_not_spaceUnderscore h⟩
    · intro hdot
      rcases hchars '.' hdot with h | h | h
      · exact absurd h (by decide)
      · exact absurd h (by decide)
      · exact absurd h (by decide)
    · exact hmulti
    · exact hhint
    · exact hunc
    · exact hdom
  unfold cleanLabel
  rw [hcore, searchSpecies_canon segs ds hsegs hseg hdne hds]
  have hsp : stripBoth pySpace (speciesOf segs) = speciesOf segs := by
    apply stripBoth_eq_self_all
    intro c hc
    rcases hspecies c hc with h | h
    · exact alnum_not_pySpace h
    · exact h ▸ by decide
  have hmap : (speciesOf segs).map spaceToU = speciesOf segs := by
    apply map_id_of
    intro c hc
    rcases hspecies c hc with h | h
    · exact alnum_spaceToU h
    · exact h ▸ by decide
  have hcl : stripBoth pySpace ('-' :: '-' :: '-' :: 'C' :: ds)
      = '-' :: '-' :: '-' :: 'C' :: ds := by
    apply stripBoth_eq_self_all
    intro c hc
    simp only [List.mem_cons] at hc
    rcases hc with h | h | h | h | h
    · exact h ▸ by decide
    · exact h ▸ by decide
    · exact h ▸ by decide
    · exact h ▸ by decide
    · exact alnum_not_pySpace (digit_alnum (hds c h))
  simp only [hsp, hmap, hcl]
  rfl

/-- Witness for C3: the canonical label of the first spec example is a fixed
point of `clean_label`. -/
theorem claim_C3_witness :
    canonLabel ["Aquibium".data, "oceanicum".data] "51".data
      = "Aquibium_oceanicum_---C51".data ∧
    (["Aquibium".data, "oceanicum".data] : List (List Char)) ≠ [] ∧
    containsCI defaultProtein (canonLabel ["Aquibium".data, "oceanicum".data] "51".data)
      = false ∧
    cleanLabel defaultProtein (canonLabel ["Aquibium".data, "oceanicum".data] "51".data)
      = canonLabel ["Aquibium".data, "oceanicum".data] "51".data :=
  ⟨by decide, by decide, by decide,
    claim_C3 defaultProtein ["Aquibium".data, "oceanicum".data] "51".data
      (by decide) (by decide) (by decide) (by decide)
      (by decide) (by decide) (by decide) (by decide)⟩

/-! ### The tree-string normalizer changes only label text -/

theorem hasClusterFrom_append {s y : List Char} (h : hasClusterFrom s = true) :
    hasClusterFrom (s ++ y) = true := by
  rcases s with _ | ⟨a, _ | ⟨b, _ | ⟨c3, _ | ⟨cc, _ | ⟨d, t⟩⟩⟩⟩⟩
  · simp [hasClusterFrom] at h
  · simp [hasClusterFrom] at h
  · simp [hasClusterFrom] at h
  · simp [hasClusterFrom] at h
  · simp [hasClusterFrom] at h
  · simpa [hasClusterFrom, List.cons_append] using h

theorem containsCluster_cons_of (c : Char) {cs : List Char}
    (h : containsCluster cs = true) : containsCluster (c :: cs) = true := by
  simp [containsCluster, h]

theorem containsCluster_append_left {y : List Char} (x : List Char)
    (h : containsCluster y = true) : containsCluster (x ++ y) = true := by
  induction x with
  | nil => simpa using h
  | cons c cs ih => exact containsCluster_cons_of c ih

theorem containsCluster_append_right {x : List Char} (y : List Char)
    (h : containsCluster x = true) : containsCluster (x ++ y) = true := by
  induction x with
  | nil => cases h
  | cons c cs ih =>
    simp only [containsCluster, Bool.or_eq_true] at h
    rcases h with h | h
    · simp only [List.cons_append, containsCluster, Bool.or_eq_true]
      exact Or.inl (by simpa [List.cons_append] using hasClusterFrom_append (y := y) h)
    · simp only [List.cons_append, containsCluster, Bool.or_eq_true]
      exact Or.inr (ih h)

theorem containsCluster_suffix {l2 l : List Char} (hsuf : l2.IsSuffix l)
    (h : containsCluster l2 = true) : containsCluster l = true := by
  obtain ⟨pre, rfl⟩ := hsuf
  exact containsCluster_append_left pre h

theorem unqSplit_spec : ∀ l a suf, unqSplit l = some (a, suf) →
    a ++ suf = l ∧ a ≠ [] ∧ hasClusterFrom suf = true := by
  intro l
  induction l with
  | nil => intro a suf h; cases h
  | cons c rest ih =>
    intro a suf h
    unfold unqSplit at h
    split at h
    · cases hr : unqSplit rest with
      | some pr =>
        obtain ⟨a2, suf2⟩ := pr
        simp only [hr, Option.some.injEq, Prod.mk.injEq] at h
        obtain ⟨h1, h2⟩ := h
        obtain ⟨hr1, _, hr3⟩ := ih a2 suf2 hr
        subst h1
        subst h2
        refine ⟨?_, by simp, hr3⟩
        simp [← hr1]
      | none =>
        simp only [hr] at h
        split at h
        · simp only [Option.some.injEq, Prod.mk.injEq] at h
          obtain ⟨h1, h2⟩ := h
          subst h1
          subst h2
          exact ⟨rfl, by simp, by assumption⟩
        · cases h
    · cases h

theorem quotedMatch_spec (q : Char) (after lab rest : List Char)
    (h : quotedMatch q after = some (lab, rest)) :
    lab ++ rest = q :: after ∧ lab ≠ [] ∧ containsCluster lab = true := by
  unfold quotedMatch at h
  cases hd : after.dropWhile (fun c => !(c == q || c == ':')) with
  | nil =>
    simp only [hd] at h
    cases h
  | cons c rest2 =>
    simp only [hd] at h
    split at h
    · rename_i hcond
      simp only [Bool.and_eq_true, beq_iff_eq] at hcond
      obtain ⟨hcq, hcc⟩ := hcond
      simp only [Option.some.injEq, Prod.mk.injEq] at h
      obtain ⟨h1, h2⟩ := h
      subst h1
      subst h2
      subst hcq
      refine ⟨?_, by simp, ?_⟩
      · conv_rhs => rw [← List.takeWhile_append_dropWhile
          (fun c2 => !(c2 == c || c2 == ':')) after]
        rw [hd]
        simp [List.append_assoc]
      · apply containsCluster_cons_of
        apply containsCluster_append_right
        exact containsCluster_suffix (List.drop_suffix 1 _) hcc
    · cases h

theorem unqMatch_spec (l lab rest : List Char) (h : unqMatch l = some (lab, rest)) :
    lab ++ rest = l ∧ lab ≠ [] ∧ containsCluster lab = true := by
  unfold unqMatch at h
  cases hs : unqSplit l with
  | none =>
    simp only [hs] at h
    cases h
  | some pr =>
    obtain ⟨a, suf⟩ := pr
    simp only [hs, Option.some.injEq, Prod.mk.injEq] at h
    obtain ⟨h1, h2⟩ := h
    obtain ⟨hrec, hane, hcl⟩ := unqSplit_spec l a suf hs
    subst h1
    subst h2
    rcases suf with _ | ⟨x1, _ | ⟨x2, _ | ⟨x3, _ | ⟨x4, _ | ⟨x5, t⟩⟩⟩⟩⟩
    · simp [hasClusterFrom] at hcl
    · simp [hasClusterFrom] at hcl
    · simp [hasClusterFrom] at hcl
    · simp [hasClusterFrom] at hcl
    · simp [hasClusterFrom] at hcl
    · simp only [hasClusterFrom, Bool.and_eq_true, beq_iff_eq] at hcl
      obtain ⟨⟨⟨⟨e1, e2⟩, e3⟩, e4⟩, e5⟩ := hcl
      subst e1
      subst e2
      subst e3
      have hds : List.takeWhile isDigitC (x5 :: t) = x5 :: List.takeWhile isDigitC t := by
        simp [List.takeWhile_cons, e5]
      have ht4 : List.take 4 ('-' :: '-' :: '-' :: x4 :: x5 :: t) = ['-', '-', '-', x4] := rfl
      have hd4 : List.drop 4 ('-' :: '-' :: '-' :: x4 :: x5 :: t) = x5 :: t := rfl
      refine ⟨?_, ?_, ?_⟩
      · rw [← hrec]
        simp only [ht4, hd4, hds, List.dropWhile_cons, e5, if_true]
        simp [List.append_assoc, List.takeWhile_append_dropWhile]
      · intro he
        exact hane (List.append_eq_nil.mp (List.append_eq_nil.mp he).1).1
      · simp only [ht4, hd4, hds]
        rw [List.append_assoc]
        refine containsCluster_append_left a ?_
        show containsCluster ('-' :: '-' :: '-' :: x4 :: x5 :: List.takeWhile isDigitC t)
          = true
        have hkey : hasClusterFrom
            ('-' :: '-' :: '-' :: x4 :: x5 :: List.takeWhile isDigitC t) = true := by
          simp only [hasClusterFrom]
          simp [e4, e5]
        simp only [containsCluster, Bool.or_eq_true]
        exact Or.inl hkey

theorem splitBranch_spec (l : List Char) :
    (splitBranch l).1 ++ (splitBranch l).2 = l ∧ branchWF (splitBranch l).1 := by
  unfold splitBranch
  split
  · rename_i c rest
    split
    · rename_i hbc
      refine ⟨?_, Or.inr ⟨c, _, rfl, hbc, fun x hx => List.mem_takeWhile_imp hx⟩⟩
      simp [List.takeWhile_append_dropWhile]
    · exact ⟨rfl, Or.inl rfl⟩
  · exact ⟨rfl, Or.inl rfl⟩

theorem labMatch_spec (l lab rest : List Char) (h : labMatch l = some (lab, rest)) :
    lab ++ rest = l ∧ lab ≠ [] ∧ containsCluster lab = true := by
  unfold labMatch at h
  split at h
  · exact quotedMatch_spec '\'' _ lab rest h
  · exact quotedMatch_spec '"' _ lab rest h
  · exact unqMatch_spec _ lab rest h

theorem mNewick_spec (l lab br rest : List Char)
    (h : mNewick l = some (lab, br, rest)) :
    lab ++ (br ++ rest) = l ∧ lab ≠ [] ∧ containsCluster lab = true ∧ branchWF br := by
  unfold mNewick at h
  cases hl : labMatch l with
  | none =>
    simp only [hl] at h
    cases h
  | some pr =>
    obtain ⟨labFull, rest1⟩ := pr
    simp only [hl, Option.some.injEq, Prod.mk.injEq] at h
    obtain ⟨h1, h2, h3⟩ := h
    obtain ⟨hr1, hr2, hr3⟩ := labMatch_spec l labFull rest1 hl
    obtain ⟨hb1, hb2⟩ := splitBranch_spec rest1
    subst h1
    refine ⟨?_, hr2, hr3, h2 ▸ hb2⟩
    rw [← h2, ← h3, hb1]
    exact hr1

theorem flatten_map_gap (f : NSeg → List Char) (hf : ∀ c, f (NSeg.gap c) = [c]) :
    ∀ l : List Char, ((l.map NSeg.gap).map f).flatten = l := by
  intro l
  induction l with
  | nil => rfl
  | cons c cs ih =>
    simp only [List.map_cons, List.flatten_cons, hf]
    rw [ih]
    rfl

theorem toSegs_orig : ∀ fuel l, ((toSegsAux fuel l).map segOrig).flatten = l := by
  intro fuel
  induction fuel with
  | zero => intro l; exact flatten_map_gap segOrig (fun _ => rfl) l
  | succ f ih =>
    intro l
    cases l with
    | nil => rfl
    | cons c cs =>
      cases hm : mNewick (c :: cs) with
      | none =>
        simp only [toSegsAux, hm, List.map_cons, List.flatten_cons, segOrig]
        rw [ih cs]
        rfl
      | some pr =>
        obtain ⟨lab, br, rest⟩ := pr
        obtain ⟨hrec, _, _, _⟩ := mNewick_spec (c :: cs) lab br rest hm
        simp only [toSegsAux, hm, List.map_cons, List.flatten_cons, segOrig]
        rw [ih rest, List.append_assoc, hrec]

theorem toSegs_clean (protein : List Char) :
    ∀ fuel l, ((toSegsAux fuel l).map (segClean protein)).flatten
      = cleanNewickAux protein fuel l := by
  intro fuel
  induction fuel with
  | zero => intro l; exact flatten_map_gap (segClean protein) (fun _ => rfl) l
  | succ f ih =>
    intro l
    cases l with
    | nil => rfl
    | cons c cs =>
      cases hm : mNewick (c :: cs) with
      | none =>
        simp only [toSegsAux, cleanNewickAux, hm, List.map_cons, List.flatten_cons,
          segClean]
        rw [ih cs]
        rfl
      | some pr =>
        obtain ⟨lab, br, rest⟩ := pr
        simp only [toSegsAux, cleanNewickAux, hm, List.map_cons, List.flatten_cons,
          segClean]
        rw [ih rest, List.append_assoc]

theorem toSegs_wf : ∀ fuel l seg, seg ∈ toSegsAux fuel l → segWF seg := by
  intro fuel
  induction fuel with
  | zero =>
    intro l seg hseg
    simp only [toSegsAux, List.mem_map] at hseg
    obtain ⟨c, _, rfl⟩ := hseg
    trivial
  | succ f ih =>
    intro l seg hseg
    cases l with
    | nil => cases hseg
    | cons c cs =>
      cases hm : mNewick (c :: cs) with
      | none =>
        simp only [toSegsAux, hm, List.mem_cons] at hseg
        rcases hseg with rfl | hseg
        · trivial
        · exact ih cs seg hseg
      | some pr =>
        obtain ⟨lab, br, rest⟩ := pr
        obtain ⟨_, h2, h3, h4⟩ := mNewick_spec (c :: cs) lab br rest hm
        simp only [toSegsAux, hm, List.mem_cons] at hseg
        rcases hseg with rfl | hseg
        · exact ⟨h2, h3, h4⟩
        · exact ih rest seg hseg

/-- C8: `clean_newick_string` never changes a branch-length suffix and passes
all text outside matched spans through unchanged.  Formally: every tree
string decomposes into segments, each either a single character outside
every match or a matched label with its branch text, such that the input is
the concatenation of the original segments and the output is the
concatenation with each label replaced by its `clean_label` image while the
branch text is reattached verbatim; every matched label is nonempty and
contains a cluster marker, and every branch text is either empty or a colon
followed by branch-length characters, so branch lengths are preserved
character for character. -/
theorem claim_C8 (protein s : List Char) :
    ∃ segs : List NSeg,
      (segs.map segOrig).flatten = s ∧
      (segs.map (segClean protein)).flatten = cleanNewick protein s ∧
      ∀ seg ∈ segs, segWF seg :=
  ⟨toSegsAux s.length s, toSegs_orig s.length s, toSegs_clean protein s.length s,
    fun seg hseg => toSegs_wf s.length s seg hseg⟩

/-- Witness for C10 on the concrete C9 scenario with block size two. -/
theorem claim_C10_witness :
    0 < 2 ∧
    List.Sublist (filterValidSequences c9check 2 c9seqs) c9seqs ∧
    c9bad ∈ allWPCodes c9seqs ∧
    (submittedCodes 2 c9seqs).count c9bad = 1 :=
  ⟨by decide, (claim_C10 c9check 2 c9seqs (by decide)).1, by decide,
    (claim_C10 c9check 2 c9seqs (by decide)).2 c9bad (by decide)⟩

end ProLink
